import Mathlib

/-!
Shallow embedding of `src/project-analyzer/scripts/analyze_project.py`
(class `ProjectAnalyzer` and its `main` entry point), together with
theorems settling the frozen claims about it.

Modelling conventions:
* A directory tree is the inductive `FSNode`; children of a directory are a
  `List FSNode` in filesystem enumeration order.  An analysis run starts from
  the root directory's name and its list of children.
* File contents are modelled by `FileContent`: a package-manifest JSON object
  (`jsonData`, with `none` standing for content on which `json.load` raises),
  a plain-text file given as its list of lines without trailing newlines
  (`textData`), or content whose read raises (`unreadable`).
* Python strings are Lean `String`s; where character-level reasoning is
  needed (the requirements-line parser, `Path.suffix`) we compute on
  `List Char`.
* Machine integers do not occur; all counts are `Nat`.
* The one fallible path of the core — `self.project_type` being read when no
  branch of `_identify_project_type` assigned it — is modelled by `Option`:
  `identifyProjectType` returns `none` when the Python attribute is left
  unset, and `analyze` returns `none` for the resulting `AttributeError`.
-/

namespace AnalyzeProject

/-! ## Character and string helpers (Python `str` operations) -/

/-- Python `str.split(sep)[0]` for a nonempty separator: the part of the list
before the first occurrence of `pat`; the whole list when `pat` is absent.
`leadsWith pat s` is `True` when `s` starts with `pat`. -/
def leadsWith : List Char → List Char → Bool
  | [], _ => true
  | _ :: _, [] => false
  | p :: ps, c :: cs => p = c && leadsWith ps cs

/-- The part of `s` strictly before the first occurrence of `pat`
(`s.split(pat)[0]` in Python, for nonempty `pat`). -/
def beforeFirst : List Char → List Char → List Char
  | [], _ => []
  | c :: rest, pat => if leadsWith pat (c :: rest) then [] else c :: beforeFirst rest pat

/-- Python `str.strip()`: drop whitespace from both ends. -/
def stripL (cs : List Char) : List Char :=
  ((cs.dropWhile Char.isWhitespace).reverse.dropWhile Char.isWhitespace).reverse

/-- Index of the last `'.'` of a name, if any. -/
def lastDot : List Char → Option Nat
  | [] => none
  | c :: rest =>
    match lastDot rest with
    | some i => some (i + 1)
    | none => if c = '.' then some 0 else none

/-- Python `pathlib.PurePath.suffix`: the extension of the final component,
`name[i:]` for the last dot index `i` when `0 < i < len(name) - 1`, else `""`.
(A leading dot marks a hidden file and is not an extension.) -/
def pySuffix (name : String) : String :=
  let cs := name.toList
  match lastDot cs with
  | some i => if 0 < i && i + 1 < cs.length then String.mk (cs.drop i) else ""
  | none => ""

/-- `item.suffix.lower()` as recorded by the statistics walk. -/
def lowerExt (name : String) : String :=
  String.mk ((pySuffix name).toList.map Char.toLower)

/-! ## Filesystem model -/

/-- Structure of a package.json object as far as the analyzer inspects it:
the `dependencies` / `devDependencies` keys, each either absent (`none`) or
present with its list of keys in declaration order. -/
structure PkgJson where
  dependencies : Option (List String)
  devDependencies : Option (List String)
deriving DecidableEq, Repr

/-- Content of a file in the model (see the module docstring). -/
inductive FileContent where
  | jsonData (pkg : Option PkgJson)
  | textData (fileLines : List String)
  | unreadable
deriving DecidableEq, Repr

/-- A node of the directory tree. -/
inductive FSNode where
  | file (name : String) (content : FileContent)
  | dir (name : String) (children : List FSNode)
deriving Repr

/-- Name of an entry, `item.name`. -/
def nodeName : FSNode → String
  | .file n _ => n
  | .dir n _ => n

/-- `item.is_dir()`. -/
def isDirB : FSNode → Bool
  | .file _ _ => false
  | .dir _ _ => true

/-- `self.ignore_dirs` from `ProjectAnalyzer.__init__`. -/
def ignoreDirs : List String :=
  [".git", "node_modules", "__pycache__", ".venv", "venv",
   "dist", "build", ".next", "coverage", ".pytest_cache",
   "vendor", "target", "bin", "obj"]

/-! ## Statistics walk (`_scan_directory`) -/

/-- Python `name.startswith('.')`: the first character is a dot. -/
def startsDot (n : String) : Bool :=
  match n.toList with
  | '.' :: _ => true
  | _ => false

/-- The hidden-entry test of `_scan_directory`:
`item.name.startswith('.') and item.name not in {'.env', '.env.example'}`. -/
def scanSkip (n : String) : Bool :=
  startsDot n && n ≠ ".env" && n ≠ ".env.example"

/-- `_scan_directory(path, depth, max_depth=5)`: the sequence of lowercase
extensions recorded into `self.file_stats`, in visit order.  The Python
function returns immediately when `depth > max_depth`; directories whose name
is hidden (minus the two env exceptions) or in `ignore_dirs` are not entered,
hidden files are not counted. -/
def scanDir (d : Nat) : List FSNode → List String
  | [] => []
  | item :: rest =>
    if d > 5 then []
    else
      (match item with
        | .file n _ => if scanSkip n then [] else [lowerExt n]
        | .dir n cs =>
          if scanSkip n then []
          else if ignoreDirs.contains n then []
          else scanDir (d + 1) cs)
      ++ scanDir d rest

/-- One `defaultdict` increment: bump the count of `k`, appending a fresh key
at the end (Python dicts preserve insertion order). -/
def bump (m : List (String × Nat)) (k : String) : List (String × Nat) :=
  match m with
  | [] => [(k, 1)]
  | (k2, v) :: rest => if k2 = k then (k2, v + 1) :: rest else (k2, v) :: bump rest k

/-- `self.file_stats` after recording the given extension sequence. -/
def histogram (exts : List String) : List (String × Nat) :=
  exts.foldl bump []

/-- Total of all counts of a histogram. -/
def histTotal (m : List (String × Nat)) : Nat :=
  (m.map Prod.snd).sum

/-! ## Classifier (`_identify_project_type`) -/

/-- `root_files = {f.name for f in self.project_path.iterdir() if f.is_file()}`
(file entries only; hidden files are included). -/
def rootFileNames (children : List FSNode) : List String :=
  children.filterMap fun x =>
    match x with
    | .file n _ => some n
    | .dir _ _ => none

/-- The first root FILE entry named `nm`, if any, with its content. -/
def findRootFile (children : List FSNode) (nm : String) : Option FileContent :=
  children.findSome? fun x =>
    match x with
    | .file n c => if n = nm then some c else none
    | .dir _ _ => none

/-- `json.load(open(project_path / 'package.json'))`: `none` when opening or
parsing raises (both are swallowed by the bare `except:` of the callers). -/
def asPkg : FileContent → Option PkgJson
  | .jsonData p => p
  | .textData _ => none
  | .unreadable => none

/-- The parsed root manifest, `none` when absent or unparseable. -/
def parsedPkg (children : List FSNode) : Option PkgJson :=
  (findRootFile children "package.json").bind asPkg

/-- Substring test, for `'.csproj' in str(root_files)`. -/
def hasSub (pat : List Char) : List Char → Bool
  | [] => pat.isEmpty
  | c :: rest => leadsWith pat (c :: rest) || hasSub pat rest

/-- The `ext_map` table of the extension-majority fallback. -/
def extMap : List (String × String) :=
  [(".py", "Python Project"), (".js", "JavaScript Project"),
   (".ts", "TypeScript Project"), (".java", "Java Project"),
   (".go", "Go Project"), (".rs", "Rust Project"),
   (".rb", "Ruby Project"), (".php", "PHP Project")]

/-- `max(self.file_stats.items(), key=lambda x: x[1])`: the first maximal
item in iteration (= insertion) order; `none` on an empty histogram. -/
def maxByCount : List (String × Nat) → Option (String × Nat)
  | [] => none
  | x :: rest => some (rest.foldl (fun best y => if y.2 > best.2 then y else best) x)

/-- The `'package.json' in root_files` branch of `_identify_project_type`.
`none` models the Python slip: when the manifest parses but carries neither a
`dependencies` nor a `devDependencies` key, no branch assigns
`self.project_type` and the attribute is left unset. -/
def pkgJsonLabel (children : List FSNode) : Option String :=
  match parsedPkg children with
  | none => some "JavaScript Project"
  | some pkg =>
    if pkg.dependencies.isSome || pkg.devDependencies.isSome then
      let deps := pkg.dependencies.getD [] ++ pkg.devDependencies.getD []
      if deps.contains "react" || deps.contains "next" then some "React/Next.js Project"
      else if deps.contains "vue" then some "Vue.js Project"
      else if deps.contains "express" then some "Node.js/Express Project"
      else some "Node.js Project"
    else none

/-- `_identify_project_type`, as the value of `self.project_type` afterwards
(`none` = attribute left unset).  `stats` is `self.file_stats` at call time. -/
def identifyProjectType (stats : List (String × Nat)) (children : List FSNode) :
    Option String :=
  let rootFiles := rootFileNames children
  if rootFiles.contains "package.json" then pkgJsonLabel children
  else if rootFiles.contains "Cargo.toml" then some "Rust Project"
  else if rootFiles.contains "go.mod" then some "Go Project"
  else if rootFiles.contains "pom.xml" || rootFiles.contains "build.gradle" then
    some "Java Project"
  else if rootFiles.contains "requirements.txt" || rootFiles.contains "pyproject.toml"
      || rootFiles.contains "setup.py" then some "Python Project"
  else if rootFiles.contains "Gemfile" then some "Ruby Project"
  else if rootFiles.any (fun n => hasSub ".csproj".toList n.toList) then
    some "C# Project"
  else
    match maxByCount stats with
    | some mc => some ((List.lookup mc.1 extMap).getD "Unknown Project Type")
    | none => some "Unknown Project Type"

/-! ## Entry-point locator (`_find_entry_points`) -/

/-- The fixed candidate list. -/
def entryCandidates : List String :=
  ["main.py", "app.py", "server.py", "run.py", "__init__.py",
   "index.js", "index.ts", "server.js", "app.js", "main.js",
   "main.go", "main.rs", "Main.java", "Program.cs",
   "index.html", "index.php"]

/-- The entry-point matches contributed by one `os.walk` tuple: the files of
the current directory whose name is in the candidate list, as root-relative
paths (`pre` is the current directory's relative path, `""` at the root). -/
def entryMatches (pre : String) (l : List FSNode) : List String :=
  l.filterMap fun x =>
    match x with
    | .file n _ => if entryCandidates.contains n then some (pre ++ n) else none
    | .dir _ _ => none

/-- The remainder of the `os.walk` traversal below the current directory:
`dirs[:] = [d for d in dirs if d not in self.ignore_dirs]` prunes ignored
names (and only those — hidden directories ARE descended into), then the walk
continues depth-first in enumeration order. -/
def entryWalkDirs (pre : String) : List FSNode → List String
  | [] => []
  | .file _ _ :: rest => entryWalkDirs pre rest
  | .dir n cs :: rest =>
    (if ignoreDirs.contains n then []
     else entryMatches (pre ++ n ++ "/") cs ++ entryWalkDirs (pre ++ n ++ "/") cs)
    ++ entryWalkDirs pre rest

/-- `_find_entry_points`: `self.entry_points` after the walk rooted at a
directory with the given children, prefixed by `pre`. -/
def entryWalk (pre : String) (l : List FSNode) : List String :=
  entryMatches pre l ++ entryWalkDirs pre l

/-! ## Config cataloger (`_analyze_config_files`) -/

/-- The `config_patterns` table. -/
def configPatterns : List (String × String) :=
  [("package.json", "Node.js dependencies and scripts"),
   ("tsconfig.json", "TypeScript configuration"),
   ("webpack.config.js", "Webpack bundler configuration"),
   ("vite.config.js", "Vite bundler configuration"),
   ("next.config.js", "Next.js framework configuration"),
   ("requirements.txt", "Python dependencies"),
   ("pyproject.toml", "Python project metadata and dependencies"),
   ("setup.py", "Python package setup"),
   ("Pipfile", "Pipenv dependencies"),
   ("Cargo.toml", "Rust dependencies and package info"),
   ("go.mod", "Go module dependencies"),
   ("pom.xml", "Maven dependencies"),
   ("build.gradle", "Gradle build configuration"),
   ("Gemfile", "Ruby dependencies"),
   ("composer.json", "PHP dependencies"),
   (".env", "Environment variables"),
   (".env.example", "Example environment variables"),
   ("docker-compose.yml", "Docker services configuration"),
   ("Dockerfile", "Docker image definition"),
   (".eslintrc", "ESLint code quality rules"),
   (".prettierrc", "Prettier code formatting"),
   ("jest.config.js", "Jest testing framework"),
   ("pytest.ini", "Pytest configuration"),
   ("README.md", "Project documentation")]

/-- The catalog entries contributed by one directory whose relative path is
`pre` (`""` for the root, the directory name plus a separator for a
first-level directory). -/
def rootConfigMatches (pre : String) (l : List FSNode) : List (String × String) :=
  l.filterMap fun x =>
    match x with
    | .file n _ => (List.lookup n configPatterns).map fun d => (pre ++ n, d)
    | .dir _ _ => none

/-- `_analyze_config_files`: the walk visits the whole tree but its
`continue` keeps only the root and first-level directories, and — unlike the
other walks — it never prunes `ignore_dirs`, so ALL first-level directories
(hidden or ignored included) are cataloged. -/
def configFilesOf (children : List FSNode) : List (String × String) :=
  rootConfigMatches "" children
  ++ children.flatMap fun x =>
      match x with
      | .dir n cs => rootConfigMatches (n ++ "/") cs
      | .file _ _ => []

/-! ## Dependency extractor (`_analyze_dependencies`) -/

/-- One line of a requirements file:
`line.split('==')[0].split('>=')[0].strip()` for lines kept by
`line.strip() and not line.startswith('#')`; `none` for skipped lines. -/
def reqEntryL (line : List Char) : Option (List Char) :=
  if stripL line = [] then none
  else if line.head? = some '#' then none
  else some (stripL (beforeFirst (beforeFirst line ['=', '=']) ['>', '=']))

/-- The same parser on `String` lines (lines carry no trailing newline; the
final `strip` makes this equivalent to Python's newline-carrying lines). -/
def reqLineEntry (line : String) : Option String :=
  (reqEntryL line.toList).map String.mk

/-- All dependency names a requirements file yields, before the cap. -/
def pipNames (fileLines : List String) : List String :=
  fileLines.filterMap reqLineEntry

/-- Reading a file as text lines; `none` when the read raises. -/
def readLines : FileContent → Option (List String)
  | .textData ls => some ls
  | .jsonData _ => none
  | .unreadable => none

/-- The `'npm'` value of `self.dependencies`. -/
structure NpmInfo where
  dependencies : List String
  devDependencies : List String
deriving DecidableEq, Repr

/-- `self.dependencies` after `_analyze_dependencies` (each key optional). -/
structure DepsInfo where
  npm : Option NpmInfo
  pip : Option (List String)
deriving DecidableEq, Repr

/-- `_analyze_dependencies`: npm names capped at 10 per category, pip names
capped at 15; any error omits the corresponding key entirely. -/
def analyzeDependencies (children : List FSNode) : DepsInfo :=
  { npm := (parsedPkg children).map fun pkg =>
      { dependencies := (pkg.dependencies.getD []).take 10
        devDependencies := (pkg.devDependencies.getD []).take 10 }
    pip :=
      match findRootFile children "requirements.txt" with
      | none => none
      | some c =>
        match readLines c with
        | none => none
        | some ls => some ((pipNames ls).take 15) }

/-! ## Tree renderer (`_get_tree_structure`) -/

/-- First component of the Python sort key `(not x.is_dir(), x.name)`:
directories rank 0, files rank 1. -/
def entryRank (x : FSNode) : Nat :=
  match x with
  | .dir _ _ => 0
  | .file _ _ => 1

/-- The ordering of `sorted(path.iterdir(), key=lambda x: (not x.is_dir(), x.name))`:
lexicographic on (rank, name). -/
def entryLE (a b : FSNode) : Prop :=
  entryRank a < entryRank b ∨ (entryRank a = entryRank b ∧ nodeName a ≤ nodeName b)

instance : DecidableRel entryLE := fun _ _ =>
  inferInstanceAs (Decidable (_ ∨ _ ∧ _))

instance : IsTotal FSNode entryLE where
  total a b := by
    unfold entryLE
    rcases Nat.lt_trichotomy (entryRank a) (entryRank b) with h | h | h
    · exact Or.inl (Or.inl h)
    · rcases le_total (nodeName a) (nodeName b) with h2 | h2
      · exact Or.inl (Or.inr ⟨h, h2⟩)
      · exact Or.inr (Or.inr ⟨h.symm, h2⟩)
    · exact Or.inr (Or.inl h)

instance : IsTrans FSNode entryLE where
  trans a b c hab hbc := by
    unfold entryLE at *
    rcases hab with h1 | ⟨h1, h1n⟩ <;> rcases hbc with h2 | ⟨h2, h2n⟩
    · exact Or.inl (Nat.lt_trans h1 h2)
    · exact Or.inl (h2 ▸ h1)
    · exact Or.inl (h1 ▸ h2)
    · exact Or.inr ⟨h1.trans h2, le_trans h1n h2n⟩

/-- The per-directory visibility filter of the renderer:
`not i.name.startswith('.') and i.name not in self.ignore_dirs`
(no `.env` exception here, and the ignore test also hits files). -/
def renderKeep (x : FSNode) : Bool :=
  !startsDot (nodeName x) && !ignoreDirs.contains (nodeName x)

/-- `items` as computed inside `add_to_tree`: children sorted
(directories before files, then by name), then filtered. -/
def renderItems (l : List FSNode) : List FSNode :=
  (List.insertionSort entryLE l).filter renderKeep

/-- `add_to_tree(path, prefix, depth)` with `max_depth = 3`, written with the
remaining depth budget as fuel (`fuel = 3 - depth`; the Python guard
`depth >= max_depth` is `fuel = 0`).  Note the faithful quirk: `is_last`
compares the index against `len(items) - 1` of the UNtruncated filtered list,
while iteration covers only `items[:20]`. -/
def renderAux : Nat → String → List FSNode → List String
  | 0, _, _ => []
  | fuel + 1, pre, l =>
    let items := renderItems l
    let n := items.length
    (items.take 20).enum.flatMap fun p =>
      let isLast := p.1 = n - 1
      let line := pre ++ (if isLast then "└── " else "├── ")
        ++ nodeName p.2 ++ (if isDirB p.2 then "/" else "")
      line ::
        (match p.2 with
          | .dir _ cs => renderAux fuel (pre ++ (if isLast then "    " else "│   ")) cs
          | .file _ _ => [])

/-- `_get_tree_structure`: the root banner line followed by the bounded
rendering of the children. -/
def getTreeStructure (rootName : String) (children : List FSNode) : List String :=
  (rootName ++ "/") :: renderAux 3 "" children

/-! ## Architecture notes (`_generate_architecture_notes`) -/

/-- The first child entry (file or directory) with the given name. -/
def childNamed (l : List FSNode) (nm : String) : Option FSNode :=
  l.find? fun x => nodeName x = nm

/-- `(self.project_path / a / b / ...).exists()` for a chain of names. -/
def pathExists (l : List FSNode) : List String → Bool
  | [] => true
  | nm :: rest =>
    match childNamed l nm with
    | some (.dir _ cs) => pathExists cs rest
    | some (.file _ _) => rest.isEmpty
    | none => false

/-- `_generate_architecture_notes`. -/
def archNotes (children : List FSNode) : List String :=
  (if pathExists children ["components"] || pathExists children ["src", "components"]
   then ["Frontend component-based architecture detected"] else [])
  ++ (if pathExists children ["api"] || pathExists children ["routes"]
      then ["API/routing layer present"] else [])
  ++ (if pathExists children ["models"] || pathExists children ["src", "models"]
      then ["Data models layer detected"] else [])
  ++ (if pathExists children ["tests"] || pathExists children ["test"]
      then ["Test suite present"] else [])
  ++ (if pathExists children ["docs"]
      then ["Documentation directory found"] else [])

/-! ## Report assembly (`analyze`) and invocation (`main`) -/

/-- The dictionary `analyze` returns. -/
structure Report where
  projectType : String
  languages : List (String × Nat)
  treeLines : List String
  entryPoints : List String
  configFiles : List (String × String)
  dependencies : DepsInfo
  architectureNotes : List String
deriving DecidableEq, Repr

/-- `ProjectAnalyzer.analyze` on a root directory with name `rootName` and
the given children.  `none` models the `AttributeError` raised while building
the result dictionary when `_identify_project_type` left `self.project_type`
unset (see `pkgJsonLabel`); every other path of the method is total. -/
def analyze (rootName : String) (children : List FSNode) : Option Report :=
  let stats := histogram (scanDir 0 children)
  match identifyProjectType stats children with
  | none => none
  | some pt =>
    some { projectType := pt
           languages := stats
           treeLines := getTreeStructure rootName children
           entryPoints := entryWalk "" children
           configFiles := configFilesOf children
           dependencies := analyzeDependencies children
           architectureNotes := archNotes children }

/-- Observable outcome of one invocation of the script. -/
inductive RunOutcome where
  | usageError
  | crash (msg : String)
  | success (r : Report)
deriving DecidableEq, Repr

/-- `main()`: `pathArg` is `sys.argv[1]` if present; `target` is what that
path resolves to on disk (`none`: no such path; a file; or a directory with
its name and children).  The only validation performed is the argument-count
check; for a missing or non-directory path the first `path.iterdir()` of
`_scan_directory` raises `FileNotFoundError` / `NotADirectoryError`, which no
handler catches (only `PermissionError` is handled there), so the process
dies with a traceback instead of the usage error. -/
def mainRun (pathArg : Option String) (target : Option FSNode) : RunOutcome :=
  match pathArg with
  | none => .usageError
  | some _ =>
    match target with
    | none => .crash "FileNotFoundError"
    | some (.file _ _) => .crash "NotADirectoryError"
    | some (.dir n cs) =>
      match analyze n cs with
      | none => .crash "AttributeError"
      | some r => .success r

/-! ## Claim-side definitions

These follow the words of the spec (not the code) and exist to be compared
with the embedded functions above. -/

/-- All files of a tree, each with the chain of directory names leading to it
from the root (spec-side addressing of tree entries). -/
def allFiles : List FSNode → List (List String × String)
  | [] => []
  | .file n _ :: rest => ([], n) :: allFiles rest
  | .dir n cs :: rest => ((allFiles cs).map fun p => (n :: p.1, p.2)) ++ allFiles rest

/-- Spec 8: "non-hidden, non-ignored files found at or below the bound
depth": a file qualifies when every directory on its chain is non-hidden
(with the `.env` allowances) and non-ignored, the file itself is non-hidden,
and its chain is no longer than the default statistics depth bound 5. -/
def scanCounted (p : List String × String) : Bool :=
  decide (p.1.length ≤ 5)
  && p.1.all (fun d => !scanSkip d && !ignoreDirs.contains d)
  && !scanSkip p.2

/-- The number of files the spec says the histogram should total to. -/
def qualifyingCount (l : List FSNode) : Nat :=
  ((allFiles l).filter scanCounted).length

/-- Remove every IgnoreSet-named directory (with its whole subtree) from a
tree: the spec's "excluded from traversal and from all counts; never
descended into, regardless of depth". -/
def pruneIgnored : List FSNode → List FSNode
  | [] => []
  | .file n c :: rest => .file n c :: pruneIgnored rest
  | .dir n cs :: rest =>
    if ignoreDirs.contains n then pruneIgnored rest
    else .dir n (pruneIgnored cs) :: pruneIgnored rest

/-- Keep only the top `d` levels of a tree (used to state the renderer's
depth bound: the rendering ignores everything below 3 levels). -/
def truncList : Nat → List FSNode → List FSNode
  | 0, _ => []
  | d + 1, l =>
    l.map fun x =>
      match x with
      | .file n c => .file n c
      | .dir n cs => .dir n (truncList d cs)

/-- Root-relative path of a file from its directory chain. -/
def joinChain : List String → String → String
  | [], f => f
  | d :: rest, f => d ++ "/" ++ joinChain rest f

/-- Spec side of C6's parenthetical: "the substring before the FIRST such
operator (`==` or `>=`), whitespace-trimmed". -/
def beforeFirstOp : List Char → List Char
  | [] => []
  | c :: rest =>
    if leadsWith ['=', '='] (c :: rest) || leadsWith ['>', '='] (c :: rest) then []
    else c :: beforeFirstOp rest

/-- The name C6 says a pinned requirement line yields. -/
def specPinName (line : List Char) : List Char :=
  stripL (beforeFirstOp line)

/-! ## Concrete trees used by several claims -/

/-- A root whose `package.json` parses to `{}`: a perfectly parseable
manifest with neither a `dependencies` nor a `devDependencies` key. -/
def bareManifestTree : List FSNode :=
  [.file "package.json" (.jsonData (some ⟨none, none⟩))]

/-- A root containing a first-level IgnoreSet directory with a recognized
config filename directly inside it. -/
def nodeModulesTree : List FSNode :=
  [.dir "node_modules" [.file "package.json" (.jsonData none)]]

/-- A manifest listing 12 production and 2 development dependencies, and a
requirements file listing 16 names. -/
def overfullTree : List FSNode :=
  [.file "package.json" (.jsonData (some
    ⟨some ["d01", "d02", "d03", "d04", "d05", "d06", "d07", "d08", "d09",
           "d10", "d11", "d12"], some ["x1", "x2"]⟩)),
   .file "requirements.txt" (.textData
    ["p01==1.0", "p02", "p03", "p04", "p05", "p06", "p07", "p08",
     "p09", "p10", "p11", "p12", "p13", "p14", "p15>=2", "p16"])]

/-- The npm record the extractor produces for `overfullTree`. -/
def overfullNpm : NpmInfo :=
  ⟨["d01", "d02", "d03", "d04", "d05", "d06", "d07", "d08", "d09", "d10"],
   ["x1", "x2"]⟩

/-- A root holding both manifests. -/
def bothManifestsTree : List FSNode :=
  [.file "package.json" (.jsonData (some ⟨some ["express"], none⟩)),
   .file "Cargo.toml" (.textData ["[package]"])]

/-- A hidden directory holding a candidate entry point. -/
def hiddenEntryTree : List FSNode :=
  [.dir ".github" [.file "main.py" .unreadable]]

/-- Whether a file with chain `p.1` and name `p.2` is counted by a
statistics walk entered at depth `d`. -/
def countedAt (d : Nat) (p : List String × String) : Bool :=
  decide (p.1.length + d ≤ 5)
  && p.1.all (fun x => !scanSkip x && !ignoreDirs.contains x)
  && !scanSkip p.2

/-- Pruning one kept entry: files unchanged, kept directories pruned inside. -/
def pruneNode : FSNode → FSNode
  | .file n c => .file n c
  | .dir n cs => .dir n (pruneIgnored cs)

/-- The entries `pruneIgnored` keeps at the current level. -/
def notIgnoredDir : FSNode → Bool
  | .file _ _ => true
  | .dir n _ => !ignoreDirs.contains n

/-- Truncation of a single entry to `d` further levels. -/
def truncNodeAt (d : Nat) : FSNode → FSNode
  | .file n c => .file n c
  | .dir n cs => .dir n (truncList d cs)

/-- A line of the rendered tree is an ENTRY line of the directory rendered
with prefix `pre` exactly when the character right after that prefix is one
of the two entry connectors: `├` (intermediate child) or `└` (last child).
Every line a recursive `add_to_tree` call under this directory contributes
carries `│` or a space at that position instead (`renderAux_line_shape`), so
counting this predicate over the output counts precisely the entries this
directory lists. -/
def entryMark (pre : String) (line : String) : Bool :=
  match line.toList.drop pre.toList.length with
  | c :: _ => c = '├' || c = '└'
  | [] => false

/-- `pkgJsonLabel` on the bare manifest: no branch assigns a label. -/
theorem pkgJsonLabel_bareManifest : pkgJsonLabel bareManifestTree = none := rfl

/-! ## C1 -/

/-- C1: the claim says a parseable manifest always yields one of the four
Node-family labels (React/Next.js, Vue, Node.js/Express, or generic Node).
The code violates this: on a manifest that parses to an object without
`dependencies`/`devDependencies` keys, `_identify_project_type` assigns no
label at all (`self.project_type` stays unset), whatever the file statistics
are. -/
theorem c1_classifier_not_total (stats : List (String × Nat)) :
    identifyProjectType stats bareManifestTree = none := rfl

/-! ## C2 -/

/-- C2: the claim says every run on an existing readable root directory
completes and returns an assembled Report.  The code violates this: on a root
containing only a `package.json` that parses to `{}`, building the result
dictionary reads the unset `self.project_type` attribute and `analyze` dies
with an `AttributeError` instead of returning a report. -/
theorem c2_analyze_crashes_on_bare_manifest :
    analyze "demo" bareManifestTree = none := rfl

/-! ## C3 -/

/-- C3 counterexample: for an invocation whose path argument names a
nonexistent path, the claim requires the invocation-error path (usage message,
non-zero exit, no analysis attempted).  The code instead starts the analysis:
the run ends in an uncaught `FileNotFoundError` raised by the first
`path.iterdir()` of the statistics walk, not in the invocation error. -/
theorem c3_counterexample :
    mainRun (some "/nonexistent") none = .crash "FileNotFoundError" ∧
    mainRun (some "/nonexistent") none ≠ .usageError := by
  exact ⟨rfl, by decide⟩

/-- C3 (amended): only the PRESENCE of the path argument is validated before
analysis.  A missing argument yields the usage invocation error with no
analysis; a nonexistent or file (non-directory) path is not checked up
front — the statistics walk is attempted first and its initial directory
enumeration raises an uncaught exception (`FileNotFoundError` /
`NotADirectoryError`), terminating the run without a report but not through
the invocation-error path. -/
theorem c3_amended_argument_check_only :
    (∀ target, mainRun none target = .usageError) ∧
    (∀ p, mainRun (some p) none = .crash "FileNotFoundError") ∧
    (∀ p n c, mainRun (some p) (some (.file n c)) = .crash "NotADirectoryError") :=
  ⟨fun _ => rfl, fun _ => rfl, fun _ _ _ => rfl⟩

/-! ## C4 (counterexample; the amended theorem comes after the walk lemmas) -/

/-- C4 counterexample: the claim says no entry whose path passes through an
IgnoreSet directory name appears in the config catalog.  The code's config
walk never prunes `ignore_dirs`, so the recognized file
`node_modules/package.json` — whose path passes through the IgnoreSet name
`node_modules` — does appear in the catalog. -/
theorem c4_counterexample :
    ignoreDirs.contains "node_modules" = true ∧
    ("node_modules/package.json", "Node.js dependencies and scripts")
      ∈ configFilesOf nodeModulesTree := by
  exact ⟨by decide, by decide⟩

/-! ## C5 -/

/-- C5: extracted dependency lists respect their caps and preserve source
order: whenever the npm key is present its two lists are exactly the first 10
manifest names per category (hence never more than 10); whenever the pip key
is present it is exactly the first 15 parsed requirement names in file order
(hence never more than 15). -/
theorem c5_dependency_caps :
    (∀ (children : List FSNode) (npm : NpmInfo),
      (analyzeDependencies children).npm = some npm →
      npm.dependencies.length ≤ 10 ∧ npm.devDependencies.length ≤ 10 ∧
      ∃ pkg, parsedPkg children = some pkg ∧
        npm.dependencies = (pkg.dependencies.getD []).take 10 ∧
        npm.devDependencies = (pkg.devDependencies.getD []).take 10) ∧
    (∀ (children : List FSNode) (pipL : List String),
      (analyzeDependencies children).pip = some pipL →
      pipL.length ≤ 15 ∧
      ∃ c ls, findRootFile children "requirements.txt" = some c ∧
        readLines c = some ls ∧ pipL = (pipNames ls).take 15) := by
  constructor
  · intro children npm h
    simp only [analyzeDependencies, Option.map_eq_some'] at h
    obtain ⟨pkg, hpkg, hmk⟩ := h
    refine ⟨?_, ?_, pkg, hpkg, ?_, ?_⟩ <;>
      simp [← hmk, List.length_take]
  · intro children pipL h
    simp only [analyzeDependencies] at h
    split at h
    · exact absurd h (by simp)
    · rename_i c hc
      split at h
      · exact absurd h (by simp)
      · rename_i ls hls
        obtain rfl : (pipNames ls).take 15 = pipL := by simpa using h
        exact ⟨by simp [List.length_take], c, ls, hc, hls, rfl⟩

/-- Witness for C5 at `overfullTree`. -/
theorem c5_witness :
    (analyzeDependencies overfullTree).npm = some overfullNpm ∧
    (overfullNpm.dependencies.length ≤ 10 ∧ overfullNpm.devDependencies.length ≤ 10 ∧
      ∃ pkg, parsedPkg overfullTree = some pkg ∧
        overfullNpm.dependencies = (pkg.dependencies.getD []).take 10 ∧
        overfullNpm.devDependencies = (pkg.devDependencies.getD []).take 10) ∧
    ∃ pipL, (analyzeDependencies overfullTree).pip = some pipL ∧
      pipL.length ≤ 15 := by
  refine ⟨by decide, c5_dependency_caps.1 overfullTree overfullNpm (by decide),
    (pipNames ["p01==1.0", "p02", "p03", "p04", "p05", "p06", "p07", "p08",
      "p09", "p10", "p11", "p12", "p13", "p14", "p15>=2", "p16"]).take 15,
    by decide,
    (c5_dependency_caps.2 overfullTree _ (by decide)).1⟩

/-! ## C7 -/

/-- The package-manifest branch never yields the Rust label. -/
theorem pkgJsonLabel_ne_rust (children : List FSNode) :
    pkgJsonLabel children ≠ some "Rust Project" := by
  unfold pkgJsonLabel
  rcases parsedPkg children with _ | pkg
  · simp
  · simp only []
    split
    · split
      · simp
      · split
        · simp
        · split <;> simp
    · simp

/-- C7: classifier priority — when a Node-style manifest (`package.json`) is
present at root, classification is the Node-style rule (whatever `Cargo.toml`
says), and the result is never the Rust label. -/
theorem c7_priority_node_over_rust (stats : List (String × Nat))
    (children : List FSNode)
    (hpkg : (rootFileNames children).contains "package.json" = true)
    (_hcargo : (rootFileNames children).contains "Cargo.toml" = true) :
    identifyProjectType stats children = pkgJsonLabel children ∧
    identifyProjectType stats children ≠ some "Rust Project" := by
  have hm : "package.json" ∈ rootFileNames children := by simpa using hpkg
  have h : identifyProjectType stats children = pkgJsonLabel children := by
    unfold identifyProjectType
    simp [hm]
  exact ⟨h, h ▸ pkgJsonLabel_ne_rust children⟩

/-- Witness for C7 at `bothManifestsTree`. -/
theorem c7_witness :
    (rootFileNames bothManifestsTree).contains "package.json" = true ∧
    (rootFileNames bothManifestsTree).contains "Cargo.toml" = true ∧
    identifyProjectType [] bothManifestsTree ≠ some "Rust Project" :=
  ⟨by decide, by decide,
    (c7_priority_node_over_rust [] bothManifestsTree (by decide) (by decide)).2⟩

/-! ## C6: requirements-line parsing -/

/-- An element that fails the predicate survives `dropWhile`. -/
theorem mem_dropWhile_of_not {α} (p : α → Bool) {c : α} :
    ∀ {l : List α}, c ∈ l → p c = false → c ∈ l.dropWhile p := by
  intro l h hc
  induction l with
  | nil => cases h
  | cons a t ih =>
    rw [List.dropWhile_cons]
    split
    · rename_i hpa
      rcases List.mem_cons.mp h with rfl | hmem
      · rw [hpa] at hc; cases hc
      · exact ih hmem
    · exact h

/-- A line containing a non-whitespace character does not strip to empty. -/
theorem stripL_ne_nil {c : Char} {l : List Char}
    (h : c ∈ l) (hc : c.isWhitespace = false) : stripL l ≠ [] := by
  unfold stripL
  intro he
  rw [List.reverse_eq_nil_iff] at he
  have h3 : c ∈ (l.dropWhile Char.isWhitespace).reverse.dropWhile Char.isWhitespace :=
    mem_dropWhile_of_not _ (List.mem_reverse.mpr (mem_dropWhile_of_not _ h hc)) hc
  rw [he] at h3
  cases h3

/-- Splitting at `"=="` stops exactly at the junction when the name holds no
`'='`. -/
theorem beforeFirst_eqeq_junction (name ver : List Char)
    (h : ∀ c ∈ name, c ≠ '=') :
    beforeFirst (name ++ '=' :: '=' :: ver) ['=', '='] = name := by
  induction name with
  | nil => simp [beforeFirst, leadsWith]
  | cons c rest ih =>
    have hc : ¬ ('=' = c) := fun he => h c (by simp) he.symm
    simp only [List.cons_append, beforeFirst, leadsWith, hc, decide_False,
      Bool.false_and, if_false]
    exact congrArg (c :: ·) (ih fun d hd => h d (by simp [hd]))

/-- Splitting a clean name at `">="` returns it whole. -/
theorem beforeFirst_geq_skip (name : List Char) (h : ∀ c ∈ name, c ≠ '>') :
    beforeFirst name ['>', '='] = name := by
  induction name with
  | nil => rfl
  | cons c rest ih =>
    have hc : ¬ ('>' = c) := fun he => h c (by simp) he.symm
    simp only [beforeFirst, leadsWith, hc, decide_False, Bool.false_and, if_false]
    exact congrArg (c :: ·) (ih fun d hd => h d (by simp [hd]))

/-- Splitting at `">="` stops exactly at the junction when the name holds no
`'>'`. -/
theorem beforeFirst_geq_junction (name w : List Char)
    (h : ∀ c ∈ name, c ≠ '>') :
    beforeFirst (name ++ '>' :: '=' :: w) ['>', '='] = name := by
  induction name with
  | nil => simp [beforeFirst, leadsWith]
  | cons c rest ih =>
    have hc : ¬ ('>' = c) := fun he => h c (by simp) he.symm
    simp only [List.cons_append, beforeFirst, leadsWith, hc, decide_False,
      Bool.false_and, if_false]
    exact congrArg (c :: ·) (ih fun d hd => h d (by simp [hd]))

/-- The first `"=="` split of a `">="`-pinned line keeps the operator when
the version does not start with `'='`. -/
theorem beforeFirst_eqeq_geq (name ver : List Char)
    (h : ∀ c ∈ name, c ≠ '=') (hv : ver.head? ≠ some '=') :
    beforeFirst (name ++ '>' :: '=' :: ver) ['=', '='] =
      name ++ '>' :: '=' :: beforeFirst ver ['=', '='] := by
  induction name with
  | nil =>
    have h1 : leadsWith ['='] ver = false := by
      cases ver with
      | nil => rfl
      | cons v t =>
        have : ¬ ('=' = v) := fun he => hv (by simp [← he])
        simp [leadsWith, this]
    simp [beforeFirst, leadsWith, h1]
  | cons c rest ih =>
    have hc : ¬ ('=' = c) := fun he => h c (by simp) he.symm
    simp only [List.cons_append, beforeFirst, leadsWith, hc, decide_False,
      Bool.false_and, if_false]
    exact congrArg (c :: ·) (ih fun d hd => h d (by simp [hd]))

/-- C6 counterexample: the line `a>==1` has the shape name `>=` version (name
`a`, version `=1`), and its first pin operator is the `>=` at index 1, so the
claim's "substring before the first such operator, whitespace-trimmed" is
`a`.  The code's sequential `split('==')[0].split('>=')[0]` instead cuts at
the `==` straddling the operator and the version, yielding `a>`. -/
theorem c6_counterexample :
    reqEntryL "a>==1".toList = some "a>".toList ∧
    specPinName "a>==1".toList = "a".toList ∧
    "a>".toList ≠ "a".toList := by
  exact ⟨by decide, by decide, by decide⟩

/-- C6 (amended): blank lines and lines with a leading `#` yield no entry; a
pinned line name `==` version, with a name free of `'='`/`'>'` and not
starting with `'#'`, yields exactly the whitespace-trimmed name, and so does
name `>=` version provided the version does not begin with `'='` (the code
strips at the first `"=="` and then at the first `">="` of the result, which
agrees with "before the first operator" exactly under that proviso). -/
theorem c6_amended_pin_stripping :
    (∀ line : List Char, stripL line = [] → reqEntryL line = none) ∧
    (∀ line : List Char, line.head? = some '#' → reqEntryL line = none) ∧
    (∀ name ver : List Char,
      (∀ c ∈ name, c ≠ '=' ∧ c ≠ '>') → name.head? ≠ some '#' →
      reqEntryL (name ++ '=' :: '=' :: ver) = some (stripL name) ∧
      (ver.head? ≠ some '=' →
        reqEntryL (name ++ '>' :: '=' :: ver) = some (stripL name))) := by
  refine ⟨?_, ?_, ?_⟩
  · intro line hb
    simp [reqEntryL, hb]
  · intro line hh
    rcases hbl : stripL line with _ | _ <;> simp [reqEntryL, hh, hbl]
  · intro name ver hclean hh
    have hne : ∀ c ∈ name, c ≠ '=' := fun c hc => (hclean c hc).1
    have hng : ∀ c ∈ name, c ≠ '>' := fun c hc => (hclean c hc).2
    have hwe : ('=').isWhitespace = false := by decide
    constructor
    · have hmem : '=' ∈ name ++ '=' :: '=' :: ver := by simp
      have hh2 : (name ++ '=' :: '=' :: ver).head? ≠ some '#' := by
        cases name with
        | nil => simp
        | cons c t => simpa using hh
      rw [reqEntryL, if_neg (stripL_ne_nil hmem hwe), if_neg hh2,
        beforeFirst_eqeq_junction name ver hne, beforeFirst_geq_skip name hng]
    · intro hv
      have hmem : '=' ∈ name ++ '>' :: '=' :: ver := by simp
      have hh2 : (name ++ '>' :: '=' :: ver).head? ≠ some '#' := by
        cases name with
        | nil => simp
        | cons c t => simpa using hh
      rw [reqEntryL, if_neg (stripL_ne_nil hmem hwe), if_neg hh2,
        beforeFirst_eqeq_geq name ver hne hv,
        beforeFirst_geq_junction name _ hng]

/-- Witness for C6 at the spec's own examples. -/
theorem c6_witness :
    reqEntryL "flask==2.0.1".toList = some (stripL "flask".toList) ∧
    reqEntryL "# comment".toList = none ∧
    reqEntryL "   ".toList = none ∧
    stripL "flask".toList = "flask".toList :=
  ⟨(c6_amended_pin_stripping.2.2 "flask".toList "2.0.1".toList
      (by decide) (by decide)).1,
   c6_amended_pin_stripping.2.1 "# comment".toList (by decide),
   c6_amended_pin_stripping.1 "   ".toList (by decide),
   by decide⟩

/-! ## C10: the entry-point walk prunes only the IgnoreSet -/

/-- Generalized membership lemma for the entry-point walk: any file of the
tree whose name is a candidate and whose directory chain avoids the IgnoreSet
is collected, wherever it sits — hiddenness plays no role in this walk. -/
theorem entryWalk_mem (l : List FSNode) :
    ∀ (pre : String) (chain : List String) (f : String),
      (chain, f) ∈ allFiles l →
      entryCandidates.contains f = true →
      (∀ d ∈ chain, ignoreDirs.contains d = false) →
      pre ++ joinChain chain f ∈ entryWalk pre l := by
  induction l using allFiles.induct with
  | case1 =>
    intro pre chain f hmem _ _
    simp [allFiles] at hmem
  | case2 n c rest ih =>
    intro pre chain f hmem hcand hig
    simp only [allFiles, List.mem_cons] at hmem
    rcases hmem with heq | hmem
    · rw [Prod.mk.injEq] at heq
      obtain ⟨rfl, rfl⟩ := heq
      have hf : f ∈ entryCandidates := by simpa using hcand
      simp [entryWalk, entryMatches, entryWalkDirs, joinChain, hf,
        List.filterMap_cons]
    · have hres := ih pre chain f hmem hcand hig
      simp only [entryWalk, List.mem_append] at hres ⊢
      rcases hres with h | h
      · left
        simp only [entryMatches, List.filterMap_cons]
        cases hcn : entryCandidates.contains n <;>
          simp_all [entryMatches, List.mem_cons]
      · right
        simpa [entryWalkDirs] using h
  | case3 n cs rest ih1 ih2 =>
    intro pre chain f hmem hcand hig
    simp only [allFiles, List.mem_append, List.mem_map] at hmem
    rcases hmem with ⟨⟨ch2, f2⟩, hmem2, heq⟩ | hmem
    · rw [Prod.mk.injEq] at heq
      obtain ⟨rfl, rfl⟩ := heq
      have hn : ignoreDirs.contains n = false := hig n (by simp)
      have hig2 : ∀ d ∈ ch2, ignoreDirs.contains d = false :=
        fun d hd => hig d (by simp [hd])
      have hres := ih1 (pre ++ n ++ "/") ch2 f2 hmem2 hcand hig2
      have hassoc : pre ++ joinChain (n :: ch2) f2 =
          pre ++ n ++ "/" ++ joinChain ch2 f2 := by
        simp [joinChain, String.append_assoc]
      rw [hassoc]
      simp only [entryWalk, List.mem_append] at hres ⊢
      right
      simp only [entryWalkDirs, hn, Bool.false_eq_true, if_false, List.mem_append]
      rcases hres with h | h
      · exact Or.inl (Or.inl h)
      · exact Or.inl (Or.inr h)
    · have hres := ih2 pre chain f hmem hcand hig
      simp only [entryWalk, List.mem_append] at hres ⊢
      rcases hres with h | h
      · left
        simpa [entryMatches, List.filterMap_cons] using h
      · right
        simp only [entryWalkDirs, List.mem_append]
        exact Or.inr h

/-- C10: the Entry-Point Locator applies no hidden-entry filter — every file
of the tree whose name matches the candidate list appears in the entry-point
list (at its root-relative path) as soon as no directory on its chain is in
the IgnoreSet; nothing in the hypotheses excludes hidden files or hidden
directories. -/
theorem c10_entry_walk_no_hidden_filter (l : List FSNode)
    (chain : List String) (f : String)
    (hmem : (chain, f) ∈ allFiles l)
    (hcand : entryCandidates.contains f = true)
    (hig : ∀ d ∈ chain, ignoreDirs.contains d = false) :
    joinChain chain f ∈ entryWalk "" l := by
  have h := entryWalk_mem l "" chain f hmem hcand hig
  have he : "" ++ joinChain chain f = joinChain chain f := by
    obtain ⟨xl⟩ := joinChain chain f
    rfl
  rwa [he] at h

/-- Witness for C10: `main.py` inside the hidden `.github` directory is still
collected (with its relative path), because only IgnoreSet names are pruned
from the entry-point walk. -/
theorem c10_witness :
    ([".github"], "main.py") ∈ allFiles hiddenEntryTree ∧
    ".github/main.py" ∈ entryWalk "" hiddenEntryTree := by
  refine ⟨by simp [hiddenEntryTree, allFiles], ?_⟩
  have h := c10_entry_walk_no_hidden_filter hiddenEntryTree [".github"] "main.py"
    (by simp [hiddenEntryTree, allFiles]) (by decide) (by decide)
  simpa [joinChain] using h

/-! ## C9: histogram total -/

/-- Below the depth bound nothing is counted. -/
theorem countedAt_false_of_deep {d : Nat} (hd : d > 5) (p : List String × String) :
    countedAt d p = false := by
  unfold countedAt
  have : ¬ (p.1.length + d ≤ 5) := by omega
  simp [this]

/-- One `defaultdict` increment adds one to the histogram total. -/
theorem histTotal_bump (m : List (String × Nat)) (k : String) :
    histTotal (bump m k) = histTotal m + 1 := by
  induction m with
  | nil => rfl
  | cons a rest ih =>
    obtain ⟨k2, v⟩ := a
    by_cases h : k2 = k <;> simp [bump, h, histTotal] at ih ⊢ <;> omega

/-- Folding a list of extensions into a histogram adds its length to the
total. -/
theorem histTotal_foldl (exts : List String) :
    ∀ m, histTotal (exts.foldl bump m) = histTotal m + exts.length := by
  induction exts with
  | nil => intro m; simp
  | cons e rest ih =>
    intro m
    rw [List.foldl_cons, ih (bump m e), histTotal_bump]
    simp [Nat.add_comm, Nat.add_assoc, Nat.add_left_comm]

/-- The statistics walk records exactly one extension per counted file. -/
theorem scanDir_length (l : List FSNode) :
    ∀ d, (scanDir d l).length = ((allFiles l).filter (countedAt d)).length := by
  induction l using allFiles.induct with
  | case1 => intro d; simp [scanDir, allFiles]
  | case2 n c rest ih =>
    intro d
    by_cases hd : d > 5
    · rw [scanDir]
      simp only [if_pos hd, List.length_nil]
      rw [List.filter_eq_nil_iff.mpr (fun p _ => by
        simp [countedAt_false_of_deep hd p])]
      rfl
    · have hdle : d ≤ 5 := Nat.le_of_not_lt hd
      rw [scanDir]
      simp only [if_neg hd, List.length_append]
      have hc : countedAt d ([], n) = !scanSkip n := by
        unfold countedAt
        simp [hdle]
      rw [allFiles, List.filter_cons, hc]
      cases hs : scanSkip n <;> simp [hs, ih d]
      omega
  | case3 n cs rest ih1 ih2 =>
    intro d
    by_cases hd : d > 5
    · rw [scanDir]
      simp only [if_pos hd, List.length_nil]
      rw [List.filter_eq_nil_iff.mpr (fun p _ => by
        simp [countedAt_false_of_deep hd p])]
      rfl
    · rw [scanDir]
      simp only [if_neg hd, List.length_append]
      rw [allFiles, List.filter_append, List.length_append, List.filter_map,
        List.length_map]
      by_cases hs : scanSkip n = true
      · have hz : ((allFiles cs).filter
            (countedAt d ∘ fun p => (n :: p.1, p.2))) = [] :=
          List.filter_eq_nil_iff.mpr (fun p _ => by
            simp [Function.comp, countedAt, hs])
        rw [hz]
        simp [hs, ih2 d]
      · by_cases hi : ignoreDirs.contains n = true
        · have hin : n ∈ ignoreDirs := by simpa using hi
          have hz : ((allFiles cs).filter
              (countedAt d ∘ fun p => (n :: p.1, p.2))) = [] :=
            List.filter_eq_nil_iff.mpr (fun p _ => by
              simp [Function.comp, countedAt, hin])
          rw [hz]
          simp [hs, hin, ih2 d]
        · have hs2 : scanSkip n = false := by simpa using hs
          have hi2 : ignoreDirs.contains n = false := by simpa using hi
          have hcg : ((allFiles cs).filter
              (countedAt d ∘ fun p => (n :: p.1, p.2))) =
              (allFiles cs).filter (countedAt (d + 1)) := by
            apply List.filter_congr
            intro p _
            have harith : decide (p.1.length + 1 + d ≤ 5) =
                decide (p.1.length + (d + 1) ≤ 5) :=
              decide_eq_decide.mpr (by omega)
            simp only [Function.comp_apply, countedAt, List.length_cons,
              List.all_cons, hs2, hi2, harith]
            simp
          rw [hcg]
          have hnotin : n ∉ ignoreDirs := by simpa using hi
          simp [hs2, hnotin, ih1 (d + 1), ih2 d]

/-- C9: for every input tree, the total of the extension histogram equals the
number of non-hidden, non-ignored files found at or below the default depth
bound 5 of the statistics walk. -/
theorem c9_histogram_total (children : List FSNode) :
    histTotal (histogram (scanDir 0 children)) = qualifyingCount children := by
  have h1 : histTotal (histogram (scanDir 0 children)) =
      (scanDir 0 children).length := by
    unfold histogram
    rw [histTotal_foldl]
    simp [histTotal]
  have h3 : (allFiles children).filter (countedAt 0) =
      (allFiles children).filter scanCounted :=
    List.filter_congr (fun p _ => by simp [countedAt, scanCounted])
  rw [h1, scanDir_length children 0, h3]
  rfl

/-! ## Sorting lemmas for the tree renderer

The Python renderer sorts with a stable sort on the key
`(not is_dir, name)`.  The lemmas below show that this sort commutes with
key-preserving maps and with filters, which is what the IgnoreSet-exclusion
and depth-bound statements about the renderer reduce to. -/

/-- `orderedInsert` commutes with a rank- and name-preserving map. -/
theorem orderedInsert_map (g : FSNode → FSNode)
    (hrank : ∀ a, entryRank (g a) = entryRank a)
    (hname : ∀ a, nodeName (g a) = nodeName a)
    (x : FSNode) (m : List FSNode) :
    List.orderedInsert entryLE (g x) (m.map g) =
      (List.orderedInsert entryLE x m).map g := by
  induction m with
  | nil => rfl
  | cons y t ih =>
    simp only [List.map_cons, List.orderedInsert]
    have he : entryLE (g x) (g y) ↔ entryLE x y := by
      unfold entryLE
      rw [hrank, hrank, hname, hname]
    by_cases h : entryLE x y
    · rw [if_pos (he.mpr h), if_pos h]
      simp
    · rw [if_neg (fun hc => h (he.mp hc)), if_neg h]
      simp [ih]

/-- The stable sort commutes with a rank- and name-preserving map. -/
theorem insertionSort_map (g : FSNode → FSNode)
    (hrank : ∀ a, entryRank (g a) = entryRank a)
    (hname : ∀ a, nodeName (g a) = nodeName a)
    (l : List FSNode) :
    List.insertionSort entryLE (l.map g) =
      (List.insertionSort entryLE l).map g := by
  induction l with
  | nil => rfl
  | cons x t ih =>
    simp only [List.map_cons, List.insertionSort, ih,
      orderedInsert_map g hrank hname]

/-- Inserting below every element is a plain cons. -/
theorem orderedInsert_eq_cons (x : FSNode) (m : List FSNode)
    (h : ∀ z ∈ m, entryLE x z) :
    List.orderedInsert entryLE x m = x :: m := by
  cases m with
  | nil => rfl
  | cons z t => simp [List.orderedInsert, if_pos (h z (by simp))]

/-- Filtering after an `orderedInsert` into a sorted list. -/
theorem orderedInsert_filter (q : FSNode → Bool) (x : FSNode) :
    ∀ (m : List FSNode), List.Sorted entryLE m →
    (List.orderedInsert entryLE x m).filter q =
      if q x then List.orderedInsert entryLE x (m.filter q) else m.filter q := by
  intro m
  induction m with
  | nil =>
    intro _
    cases hqx : q x <;> simp [List.orderedInsert, List.filter, hqx]
  | cons y t ih =>
    intro hm
    have ht : List.Sorted entryLE t := hm.of_cons
    simp only [List.orderedInsert]
    by_cases hxy : entryLE x y
    · rw [if_pos hxy]
      cases hqx : q x
      · have : (x :: y :: t).filter q = (y :: t).filter q := by
          rw [List.filter_cons_of_neg (by simp [hqx])]
        rw [this]
        simp [hqx]
      · have hall : ∀ z ∈ (y :: t).filter q, entryLE x z := by
          intro z hz
          have hz2 := List.mem_of_mem_filter hz
          rcases List.mem_cons.mp hz2 with rfl | hzt
          · exact hxy
          · exact IsTrans.trans x y z hxy (List.rel_of_sorted_cons hm z hzt)
        rw [List.filter_cons_of_pos (by simp [hqx]), if_pos rfl,
          orderedInsert_eq_cons x _ hall]
    · rw [if_neg hxy]
      cases hqy : q y <;> cases hqx : q x <;>
        simp [List.filter_cons, hqy, hqx, ih ht, List.orderedInsert, hxy]

/-- The stable sort commutes with filtering. -/
theorem insertionSort_filter (q : FSNode → Bool) (l : List FSNode) :
    List.insertionSort entryLE (l.filter q) =
      (List.insertionSort entryLE l).filter q := by
  induction l with
  | nil => rfl
  | cons x t ih =>
    rw [List.filter_cons]
    have hsorted := List.sorted_insertionSort entryLE t
    cases hqx : q x
    · simp only [Bool.false_eq_true, if_false, List.insertionSort, ih,
        orderedInsert_filter q x _ hsorted, hqx]
    · simp only [if_pos rfl, List.insertionSort, ih,
        orderedInsert_filter q x _ hsorted, hqx]
      simp

/-- Filtering by a weaker predicate first changes nothing. -/
theorem filter_filter_of_imp {α} (p q : α → Bool)
    (himp : ∀ x, p x = true → q x = true) (l : List α) :
    (l.filter q).filter p = l.filter p := by
  induction l with
  | nil => rfl
  | cons x t ih =>
    cases hq : q x
    · have hp : p x = false := by
        cases hpx : p x
        · rfl
        · rw [himp x hpx] at hq; cases hq
      rw [List.filter_cons_of_neg (by simp [hq]),
        List.filter_cons_of_neg (by simp [hp]), ih]
    · rw [List.filter_cons_of_pos (by simp [hq]), List.filter_cons,
        List.filter_cons, ih]

/-- `flatMap` after a `map`. -/
theorem flatMap_map_fn {α β γ} (h : α → β) (F : β → List γ) (l : List α) :
    (l.map h).flatMap F = l.flatMap fun a => F (h a) := by
  induction l with
  | nil => rfl
  | cons x t ih => simp [ih]

/-- Pointwise-equal functions give equal `flatMap`s. -/
theorem flatMap_congr_fn {α β} {f g : α → List β} (h : ∀ a, f a = g a)
    (l : List α) : l.flatMap f = l.flatMap g := by
  induction l with
  | nil => rfl
  | cons x t ih => simp [h x, ih]

theorem pruneIgnored_eq (l : List FSNode) :
    pruneIgnored l = (l.filter notIgnoredDir).map pruneNode := by
  induction l using pruneIgnored.induct with
  | case1 => rw [pruneIgnored]; rfl
  | case2 n c rest ih =>
    rw [pruneIgnored, List.filter_cons_of_pos (by rfl), List.map_cons, ih]
    rfl
  | case3 n cs rest hig ih =>
    have hni : notIgnoredDir (FSNode.dir n cs) = false := by
      simp only [notIgnoredDir, hig, Bool.not_true]
    rw [pruneIgnored, if_pos hig, ih,
      List.filter_cons_of_neg (by simp [hni])]
  | case4 n cs rest hig ihcs ih =>
    have hni : notIgnoredDir (FSNode.dir n cs) = true := by
      simp only [notIgnoredDir, Bool.not_eq_true']
      simpa using hig
    rw [pruneIgnored, if_neg hig, List.filter_cons_of_pos hni,
      List.map_cons, ih]
    rfl

theorem pruneNode_rank (a : FSNode) : entryRank (pruneNode a) = entryRank a := by
  cases a <;> rfl

theorem pruneNode_name (a : FSNode) : nodeName (pruneNode a) = nodeName a := by
  cases a <;> rfl

theorem pruneNode_keep (a : FSNode) : renderKeep (pruneNode a) = renderKeep a := by
  cases a <;> rfl

theorem truncNodeAt_rank (d : Nat) (a : FSNode) :
    entryRank (truncNodeAt d a) = entryRank a := by
  cases a <;> rfl

theorem truncNodeAt_name (d : Nat) (a : FSNode) :
    nodeName (truncNodeAt d a) = nodeName a := by
  cases a <;> rfl

theorem truncNodeAt_keep (d : Nat) (a : FSNode) :
    renderKeep (truncNodeAt d a) = renderKeep a := by
  cases a <;> rfl

theorem truncList_succ (d : Nat) (l : List FSNode) :
    truncList (d + 1) l = l.map (truncNodeAt d) := by
  rw [truncList]
  congr 1

/-- Visible entries survive the IgnoreSet filter. -/
theorem renderKeep_imp (x : FSNode) :
    renderKeep x = true → notIgnoredDir x = true := by
  cases x with
  | file n c => intro _; rfl
  | dir n cs =>
    intro h
    simp only [renderKeep, nodeName, Bool.and_eq_true] at h
    simp only [notIgnoredDir]
    exact h.2

/-- Dropping IgnoreSet directories at the current level does not change the
renderer's per-directory listing. -/
theorem renderItems_filter_nid (l : List FSNode) :
    renderItems (l.filter notIgnoredDir) = renderItems l := by
  unfold renderItems
  rw [insertionSort_filter notIgnoredDir l]
  exact filter_filter_of_imp renderKeep notIgnoredDir renderKeep_imp _

/-- The per-directory listing commutes with key-preserving maps. -/
theorem renderItems_map (g : FSNode → FSNode)
    (hrank : ∀ a, entryRank (g a) = entryRank a)
    (hname : ∀ a, nodeName (g a) = nodeName a)
    (hkeep : ∀ a, renderKeep (g a) = renderKeep a)
    (l : List FSNode) :
    renderItems (l.map g) = (renderItems l).map g := by
  unfold renderItems
  rw [insertionSort_map g hrank hname, List.filter_map]
  congr 1
  exact List.filter_congr fun x _ => by simp [Function.comp, hkeep x]

theorem renderItems_prune (l : List FSNode) :
    renderItems (pruneIgnored l) = (renderItems l).map pruneNode := by
  rw [pruneIgnored_eq,
    renderItems_map pruneNode pruneNode_rank pruneNode_name pruneNode_keep,
    renderItems_filter_nid]

/-- The rendered tree is unchanged by deleting IgnoreSet directories. -/
theorem renderAux_prune :
    ∀ (fuel : Nat) (pre : String) (l : List FSNode),
      renderAux fuel pre (pruneIgnored l) = renderAux fuel pre l := by
  intro fuel
  induction fuel with
  | zero => intro pre l; rfl
  | succ f ih =>
    intro pre l
    simp only [renderAux]
    rw [renderItems_prune]
    simp only [List.length_map, ← List.map_take, List.enum_map,
      flatMap_map_fn]
    apply flatMap_congr_fn
    intro p
    obtain ⟨i, item⟩ := p
    cases item <;> simp [Prod.map, pruneNode, nodeName, isDirB, ih]

/-- The rendered tree is unchanged by truncating the input below the
renderer's depth budget. -/
theorem renderAux_trunc :
    ∀ (fuel : Nat) (pre : String) (l : List FSNode),
      renderAux fuel pre (truncList fuel l) = renderAux fuel pre l := by
  intro fuel
  induction fuel with
  | zero => intro pre l; rfl
  | succ f ih =>
    intro pre l
    simp only [renderAux]
    rw [truncList_succ,
      renderItems_map (truncNodeAt f) (truncNodeAt_rank f) (truncNodeAt_name f)
        (truncNodeAt_keep f)]
    simp only [List.length_map, ← List.map_take, List.enum_map,
      flatMap_map_fn]
    apply flatMap_congr_fn
    intro p
    obtain ⟨i, item⟩ := p
    cases item <;> simp [Prod.map, truncNodeAt, nodeName, isDirB, ih]

/-- Nothing is recorded by a statistics walk entered beyond the bound. -/
theorem scanDir_deep {d : Nat} (hd : d > 5) (l : List FSNode) :
    scanDir d l = [] := by
  cases l with
  | nil => rw [scanDir]
  | cons x t => cases x <;> rw [scanDir] <;> simp [hd]

/-- The statistics walk is unchanged by deleting IgnoreSet directories. -/
theorem scanDir_prune (l : List FSNode) :
    ∀ d, scanDir d (pruneIgnored l) = scanDir d l := by
  induction l using pruneIgnored.induct with
  | case1 => intro d; rw [pruneIgnored]
  | case2 n c rest ih =>
    intro d
    rw [pruneIgnored]
    simp only [scanDir]
    rw [ih d]
  | case3 n cs rest hig ih =>
    intro d
    have hin : n ∈ ignoreDirs := by simpa using hig
    by_cases hd : d > 5
    · rw [pruneIgnored, if_pos hig, scanDir_deep hd, scanDir_deep hd]
    · rw [pruneIgnored, if_pos hig]
      conv_rhs => rw [scanDir]
      rw [if_neg hd, ← ih d]
      cases hs : scanSkip n <;> simp [hs, hin]
  | case4 n cs rest hig ihcs ih =>
    intro d
    have hnin : n ∉ ignoreDirs := by simpa using hig
    rw [pruneIgnored, if_neg hig]
    simp only [scanDir]
    rw [ih d]
    by_cases hd : d > 5
    · simp [hd]
    · cases hs : scanSkip n <;> simp [hs, hd, hnin, ihcs (d + 1)]

/-- The entry matches of one directory are unchanged by pruning. -/
theorem entryMatches_prune (pre : String) (l : List FSNode) :
    entryMatches pre (pruneIgnored l) = entryMatches pre l := by
  induction l using pruneIgnored.induct with
  | case1 => rw [pruneIgnored]
  | case2 n c rest ih =>
    rw [pruneIgnored]
    simp only [entryMatches, List.filterMap_cons] at ih ⊢
    rw [ih]
  | case3 n cs rest hig ih =>
    rw [pruneIgnored, if_pos hig]
    simp only [entryMatches, List.filterMap_cons] at ih ⊢
    rw [ih]
  | case4 n cs rest hig ihcs ih =>
    rw [pruneIgnored, if_neg hig]
    simp only [entryMatches, List.filterMap_cons] at ih ⊢
    rw [ih]

/-- The recursive part of the entry-point walk is unchanged by pruning. -/
theorem entryWalkDirs_prune (l : List FSNode) :
    ∀ pre, entryWalkDirs pre (pruneIgnored l) = entryWalkDirs pre l := by
  induction l using pruneIgnored.induct with
  | case1 => intro pre; rw [pruneIgnored]
  | case2 n c rest ih =>
    intro pre
    rw [pruneIgnored, entryWalkDirs, entryWalkDirs, ih pre]
  | case3 n cs rest hig ih =>
    intro pre
    rw [pruneIgnored, if_pos hig, entryWalkDirs, if_pos hig, ih pre]
    rfl
  | case4 n cs rest hig ihcs ih =>
    intro pre
    rw [pruneIgnored, if_neg hig, entryWalkDirs, entryWalkDirs,
      if_neg hig, if_neg hig, ih pre,
      entryMatches_prune (pre ++ n ++ "/") cs, ihcs (pre ++ n ++ "/")]

/-- The entry-point list is unchanged by deleting IgnoreSet directories. -/
theorem entryWalk_prune (pre : String) (l : List FSNode) :
    entryWalk pre (pruneIgnored l) = entryWalk pre l := by
  rw [entryWalk, entryWalk, entryMatches_prune, entryWalkDirs_prune]

/-- C4 (amended): IgnoreSet directories are excluded from the statistics
walk, the entry-point walk, and the rendered tree — deleting every
IgnoreSet-named directory (with its whole subtree) from the input changes
none of those three outputs.  They are NOT excluded from the config catalog:
see the counterexample, where a recognized filename directly inside a
first-level IgnoreSet directory appears in the catalog. -/
theorem c4_amended_ignore_exclusion (l : List FSNode) :
    (∀ d, scanDir d (pruneIgnored l) = scanDir d l) ∧
    (∀ pre, entryWalk pre (pruneIgnored l) = entryWalk pre l) ∧
    (∀ rootName, getTreeStructure rootName (pruneIgnored l) =
      getTreeStructure rootName l) :=
  ⟨scanDir_prune l, fun pre => entryWalk_prune pre l,
   fun rootName => by rw [getTreeStructure, getTreeStructure, renderAux_prune]⟩

/-- `(s ++ t).toList` splits. -/
theorem toList_append (s t : String) : (s ++ t).toList = s.toList ++ t.toList := by
  simp [String.toList]

/-- Counting over a `flatMap` whose every block counts one. -/
theorem countP_flatMap_ones {α β} (p : β → Bool) (F : α → List β) :
    ∀ l : List α, (∀ a ∈ l, (F a).countP p = 1) →
      (l.flatMap F).countP p = l.length := by
  intro l
  induction l with
  | nil => intro _; rfl
  | cons x t ih =>
    intro h
    simp only [List.flatMap_cons, List.countP_append, List.length_cons,
      h x (by simp), ih fun a ha => h a (by simp [ha])]
    omega

/-- A string that extends `pre` by the character `c` is an entry line of
`pre` exactly when `c` is one of the two connectors. -/
theorem entryMark_shape (pre ln : String) (c : Char) (rest : List Char)
    (h : ln.toList = pre.toList ++ c :: rest) :
    entryMark pre ln = (c = '├' || c = '└') := by
  unfold entryMark
  rw [h, List.drop_left]

/-- Every line the renderer emits for a directory rendered with prefix `pre`
extends `pre` by a connector (`├`/`└`, for this directory's own entries) or
by a deeper-level pad character (`│`/space). -/
theorem renderAux_line_shape :
    ∀ (fuel : Nat) (pre : String) (l : List FSNode) (ln : String),
      ln ∈ renderAux fuel pre l →
      ∃ c rest, ln.toList = pre.toList ++ c :: rest ∧
        (c = '├' ∨ c = '└' ∨ c = '│' ∨ c = ' ') := by
  intro fuel
  induction fuel with
  | zero =>
    intro pre l ln h
    simp [renderAux] at h
  | succ f ih =>
    intro pre l ln h
    simp only [renderAux, List.mem_flatMap] at h
    obtain ⟨⟨i, item⟩, hp, hln⟩ := h
    have hconn1 : "├── ".toList = '├' :: "── ".toList := rfl
    have hconn2 : "└── ".toList = '└' :: "── ".toList := rfl
    have hpad1 : "│   ".toList = '│' :: "   ".toList := rfl
    have hpad2 : "    ".toList = ' ' :: "   ".toList := rfl
    cases item with
    | file nm cc =>
      simp only [List.mem_cons, List.not_mem_nil, or_false] at hln
      subst hln
      by_cases hl : i = (renderItems l).length - 1
      · exact ⟨'└', "── ".toList ++ nm.toList ++ "".toList,
          by simp [hl, toList_append, nodeName, isDirB, hconn2], by simp⟩
      · exact ⟨'├', "── ".toList ++ nm.toList ++ "".toList,
          by simp [hl, toList_append, nodeName, isDirB, hconn1], by simp⟩
    | dir nm cs =>
      rcases List.mem_cons.mp hln with rfl | hdeep
      · by_cases hl : i = (renderItems l).length - 1
        · exact ⟨'└', "── ".toList ++ nm.toList ++ "/".toList,
            by simp [hl, toList_append, nodeName, isDirB, hconn2], by simp⟩
        · exact ⟨'├', "── ".toList ++ nm.toList ++ "/".toList,
            by simp [hl, toList_append, nodeName, isDirB, hconn1], by simp⟩
      · by_cases hl : i = (renderItems l).length - 1
        · rw [if_pos hl] at hdeep
          obtain ⟨c2, r, heq, _⟩ := ih (pre ++ "    ") cs ln hdeep
          refine ⟨' ', "   ".toList ++ c2 :: r, ?_, by simp⟩
          rw [heq, toList_append, hpad2]
          simp
        · rw [if_neg hl] at hdeep
          obtain ⟨c2, r, heq, _⟩ := ih (pre ++ "│   ") cs ln hdeep
          refine ⟨'│', "   ".toList ++ c2 :: r, ?_, by simp⟩
          rw [heq, toList_append, hpad1]
          simp

/-- One rendered block (an entry's own line followed by the rendering of its
subtree) contains exactly one entry line of the enclosing directory. -/
theorem countP_entry_block (pre conn nm sfx : String) (deeper : List String)
    (hconn : conn.toList = '├' :: "── ".toList ∨ conn.toList = '└' :: "── ".toList)
    (hdeep : ∀ ln ∈ deeper, entryMark pre ln = false) :
    ((pre ++ conn ++ nm ++ sfx) :: deeper).countP (entryMark pre) = 1 := by
  rw [List.countP_cons,
    List.countP_eq_zero.mpr fun a ha => by simp [hdeep a ha]]
  rcases hconn with hc | hc
  · rw [entryMark_shape pre _ '├' ("── ".toList ++ nm.toList ++ sfx.toList)
      (by
        have hcd : conn.data = '├' :: "── ".toList := hc
        simp [toList_append, hcd])]
    simp
  · rw [entryMark_shape pre _ '└' ("── ".toList ++ nm.toList ++ sfx.toList)
      (by
        have hcd : conn.data = '└' :: "── ".toList := hc
        simp [toList_append, hcd])]
    simp

/-- The rendering of a directory contains exactly one entry line per listed
entry: as many as `(renderItems l).take 20` holds, never more than 20. -/
theorem renderAux_entry_count (f : Nat) (pre : String) (l : List FSNode) :
    (renderAux (f + 1) pre l).countP (entryMark pre) =
      ((renderItems l).take 20).length := by
  simp only [renderAux]
  refine (countP_flatMap_ones _ _ _ ?_).trans (List.enum_length)
  intro p hp
  obtain ⟨i, item⟩ := p
  dsimp only
  have hdeepF : ∀ (pad : String) (hc : pad.toList = '│' :: "   ".toList ∨
      pad.toList = ' ' :: "   ".toList) (cs : List FSNode),
      ∀ ln ∈ renderAux f (pre ++ pad) cs, entryMark pre ln = false := by
    intro pad hc cs ln hln
    obtain ⟨c2, r, heq, _⟩ := renderAux_line_shape f (pre ++ pad) cs ln hln
    rw [toList_append] at heq
    rcases hc with hpc | hpc
    · rw [hpc] at heq
      rw [entryMark_shape pre ln '│' ("   ".toList ++ c2 :: r)
        (by rw [heq]; simp)]
      decide
    · rw [hpc] at heq
      rw [entryMark_shape pre ln ' ' ("   ".toList ++ c2 :: r)
        (by rw [heq]; simp)]
      decide
  cases item with
  | file nm cc =>
    by_cases hl : i = (renderItems l).length - 1
    · rw [if_pos hl]
      exact countP_entry_block pre _ _ _ _ (Or.inr rfl) (by simp)
    · rw [if_neg hl]
      exact countP_entry_block pre _ _ _ _ (Or.inl rfl) (by simp)
  | dir nm cs =>
    by_cases hl : i = (renderItems l).length - 1
    · rw [if_pos hl, if_pos hl]
      exact countP_entry_block pre _ _ _ _ (Or.inr rfl)
        (hdeepF "    " (Or.inr rfl) cs)
    · rw [if_neg hl, if_neg hl]
      exact countP_entry_block pre _ _ _ _ (Or.inl rfl)
        (hdeepF "│   " (Or.inl rfl) cs)

/-- C8: bounds of the rendered directory tree, stated on the output.
(1) Exact per-directory cap: the rendering of any directory contains exactly
one entry line (a line whose character right after the rendering prefix is a
`├`/`└` connector — every deeper line carries `│` or a space there) per
element of `(renderItems l).take 20`; (2) hence every directory — each inner
directory being rendered by a recursive `renderAux` call with its own
prefix — lists at most 20 entries, a bound an uncapped renderer would
violate; (3) in particular the tree below `getTreeStructure`'s banner line
lists at most 20 root-level entries; (4) each directory's listing is sorted
with directories (rank 0) before files (rank 1) and each group in
alphabetical name order (`Sorted entryLE`); (5) the rendering descends at
most 3 levels below the root: the output is unchanged when the input tree is
truncated to 3 levels. -/
theorem c8_tree_bounds :
    (∀ (f : Nat) (pre : String) (l : List FSNode),
      (renderAux (f + 1) pre l).countP (entryMark pre) =
        ((renderItems l).take 20).length) ∧
    (∀ (fuel : Nat) (pre : String) (l : List FSNode),
      (renderAux fuel pre l).countP (entryMark pre) ≤ 20) ∧
    (∀ (rootName : String) (l : List FSNode),
      ((getTreeStructure rootName l).tail).countP (entryMark "") ≤ 20) ∧
    (∀ l : List FSNode, List.Sorted entryLE (renderItems l)) ∧
    (∀ (rootName : String) (l : List FSNode),
      getTreeStructure rootName (truncList 3 l) = getTreeStructure rootName l) := by
  have hle : ∀ (fuel : Nat) (pre : String) (l : List FSNode),
      (renderAux fuel pre l).countP (entryMark pre) ≤ 20 := by
    intro fuel pre l
    cases fuel with
    | zero => simp [renderAux]
    | succ f =>
      rw [renderAux_entry_count f pre l]
      simp [List.length_take]
  refine ⟨renderAux_entry_count, hle, ?_, ?_, ?_⟩
  · intro rootName l
    have ht : (getTreeStructure rootName l).tail = renderAux 3 "" l := rfl
    rw [ht]
    exact hle 3 "" l
  · intro l
    exact (List.sorted_insertionSort entryLE l).filter renderKeep
  · intro rootName l
    rw [getTreeStructure, getTreeStructure, renderAux_trunc]

end AnalyzeProject
